import Mathlib

/-!
Verification model of the LLMdig request pipeline.

Strings are modelled as `List Char`; the repository's hot path operates on
ASCII data (domain names, the sanitizer's allowlist), for which Rust's byte
length coincides with the character count and `str::to_lowercase` coincides
with ASCII lowercasing, so `Char.toLower` and `List.length` model `.to_lowercase()`
and `.len()`.  Byte strings (TXT record data) are modelled as `List Nat`.
Wall-clock instants are `ℚ` for the rate limiter (real-valued tokens) and `ℕ`
(whole seconds) for the caches.
-/

namespace LLMdig

/-! ### Sanitizer (src/utils/sanitizer.rs) -/

/-- The `ALLOWED_CHARS` set of sanitizer.rs: ASCII letters, digits, space and
the punctuation `.,!?-_'"():;`. -/
def allowedChar (c : Char) : Bool :=
  ('a' ≤ c && c ≤ 'z') || ('A' ≤ c && c ≤ 'Z') || ('0' ≤ c && c ≤ '9') ||
  c = ' ' || c = '.' || c = ',' || c = '!' || c = '?' || c = '-' ||
  c = '_' || c = '\'' || c = '"' || c = '(' || c = ')' || c = ':' || c = ';'

/-- The character class `[<>"'&]` of the fourth dangerous pattern. -/
def dangerousChar (c : Char) : Bool :=
  c = '<' || c = '>' || c = '"' || c = '\'' || c = '&'

/-- Alternatives of the first dangerous pattern (script-like tokens), in the
order they appear in the regex alternation. -/
def scriptWords : List (List Char) :=
  ["script".data, "javascript".data, "vbscript".data, "expression".data,
   "onload".data, "onerror".data, "onclick".data]

/-- Alternatives of the second dangerous pattern (SQL-verb tokens). -/
def sqlWords : List (List Char) :=
  ["union".data, "select".data, "insert".data, "update".data,
   "delete".data, "drop".data, "create".data, "alter".data]

/-- Alternatives of the third dangerous pattern (shell-invocation tokens). -/
def shellWords : List (List Char) :=
  ["eval".data, "exec".data, "system".data, "shell".data, "cmd".data,
   "powershell".data]

/-- Case-insensitive match of the word `w` against the front of `s`; on success
returns the remaining suffix.  Models one regex alternative matching at the
current position under the `(?i)` flag. -/
def dropWordCI : List Char → List Char → Option (List Char)
  | [], s => some s
  | _ :: _, [] => none
  | w :: ws, c :: cs => if c.toLower = w then dropWordCI ws cs else none

/-- Try the alternatives in order at the current position (regex
leftmost-first alternation); empty alternatives are skipped (none occur in the
source patterns). -/
def dropMatched : List (List Char) → List Char → Option (List Char)
  | [], _ => none
  | w :: ws, s =>
    match w with
    | [] => dropMatched ws s
    | _ :: _ =>
      match dropWordCI w s with
      | some rest => some rest
      | none => dropMatched ws s

/-- Fuelled scan implementing `Regex::replace_all(s, "")` for a word
alternation: walk left to right, removing each leftmost non-overlapping match.
Every step consumes at least one character, so fuel `s.length` is exact. -/
def stripWordsFuel (words : List (List Char)) : Nat → List Char → List Char
  | 0, s => s
  | _ + 1, [] => []
  | fuel + 1, c :: cs =>
    match dropMatched words (c :: cs) with
    | some rest => stripWordsFuel words fuel rest
    | none => c :: stripWordsFuel words fuel cs

/-- Models `pattern.replace_all(s, "")` for one alternation pattern. -/
def stripWords (words : List (List Char)) (s : List Char) : List Char :=
  stripWordsFuel words s.length s

/-- Models `pattern.is_match(s)` for one alternation pattern: some alternative
matches at some position. -/
def hasWordMatch (words : List (List Char)) : List Char → Bool
  | [] => false
  | c :: cs => (dropMatched words (c :: cs)).isSome || hasWordMatch words cs

/-- Models `DANGEROUS_PATTERNS.iter().any(|p| p.is_match(q))`: one of the four
patterns matches somewhere in `q`. -/
def dangerousMatch (q : List Char) : Bool :=
  hasWordMatch scriptWords q || hasWordMatch sqlWords q ||
  hasWordMatch shellWords q || q.any dangerousChar

/-- Models `replace_all` of the fourth pattern `[<>"'&]`: every match is a single
character, so removing all matches is a filter. -/
def removeDangerousChars (s : List Char) : List Char :=
  s.filter (fun c => !dangerousChar c)

/-- The allowlist filter step of `sanitize_query`. -/
def filterAllowed (s : List Char) : List Char :=
  s.filter (fun c => allowedChar c)

/-- Rust's `str::split_whitespace`: split on whitespace runs, no empty
pieces. -/
def split_whitespace (s : List Char) : List (List Char) :=
  (s.splitOnP Char.isWhitespace).filter (fun p => p ≠ [])

/-- Models `split_whitespace().collect::<Vec<_>>().join(" ")`. -/
def normalizeWhitespace (s : List Char) : List Char :=
  List.intercalate [' '] (split_whitespace s)

/-- Models `if sanitized.len() > 200 { sanitized[..200] }` (all characters are ASCII
at this point, so byte indexing is character indexing). -/
def truncate200 (s : List Char) : List Char :=
  if 200 < s.length then s.take 200 else s

/-- Models `Sanitizer::sanitize_query`: lowercase, strip the three word patterns in
order, drop `[<>"'&]`, keep only allowlist characters, normalize whitespace,
truncate to 200 bytes. -/
def sanitize_query (query : List Char) : List Char :=
  truncate200 (normalizeWhitespace (filterAllowed (removeDangerousChars
    (stripWords shellWords (stripWords sqlWords (stripWords scriptWords
      (query.map Char.toLower)))))))

/-- Models `Sanitizer::is_safe`. -/
def is_safe (query : List Char) : Bool :=
  let sanitized := sanitize_query query
  if sanitized.length < query.length * 3 / 4 then false
  else if dangerousMatch query then false
  else if sanitized.length < 3 || 200 < sanitized.length then false
  else true

/-! ### Question extractor and DNS handler (src/dns.rs) -/

/-- Models `str::split('.')`: split at every dot, keeping empty pieces. -/
def splitDots : List Char → List (List Char)
  | [] => [[]]
  | c :: cs =>
    match splitDots cs with
    | [] => [[c]]
    | p :: ps => if c = '.' then [] :: p :: ps else (c :: p) :: ps

/-- Models `str::trim_end_matches('.')`: drop every trailing dot. -/
def trimTrailingDots (s : List Char) : List Char :=
  (s.reverse.dropWhile (fun c => c = '.')).reverse

/-- Models `question.replace('-', " ").replace('_', " ")`. -/
def dashUnderscoreToSpace (s : List Char) : List Char :=
  s.map (fun c => if c = '-' || c = '_' then ' ' else c)

/-- Models `DnsHandler::extract_question_from_domain`: trim trailing dot, split on
dots, require at least 2 labels, join all but the last with spaces, replace
`-` and `_` by spaces.  (The sanitizer is not invoked here.) -/
def extract_question_from_domain (domain : List Char) :
    Except (List Char) (List Char) :=
  let domainStr := trimTrailingDots domain
  let parts := splitDots domainStr
  if parts.length < 2 then
    Except.error "Domain must have at least 2 parts".data
  else
    let questionParts := parts.dropLast
    let question := List.intercalate [' '] questionParts
    Except.ok (dashUnderscoreToSpace question)

/-- DNS record types relevant to the handler: it only serves `TXT`. -/
inductive QType where
  | TXT
  | A
  | other
deriving DecidableEq

/-- DNS response codes used by the handler. -/
inductive RCode where
  | NoError
  | FormErr
  | ServFail
  | NotImp
deriving DecidableEq

/-- An inbound request as the handler sees it: id, queried name (string form
of the `Name`), query type and the RD flag. -/
structure DnsRequest where
  id : Nat
  name : List Char
  qtype : QType
  recursion_desired : Bool
deriving DecidableEq

/-- The reply message built by `send_txt_response` / `send_error_response`:
id, RCODE, flags, echoed question, and TXT answer chunks (byte strings). -/
structure DnsResponse where
  id : Nat
  response_code : RCode
  authoritative : Bool
  recursion_desired : Bool
  recursion_available : Bool
  query_name : List Char
  query_type : QType
  answers : List (List Nat)
deriving DecidableEq

/-- The bytes of a string, in the ASCII model (`str::bytes`). -/
def strBytes (s : List Char) : List Nat :=
  s.map Char.toNat

/-- One step of `DnsHandler::chunk_response`'s loop: if the current chunk
already holds 255 bytes, flush it and start a fresh one with this byte. -/
def chunkStep (acc : List (List Nat) × List Nat) (b : Nat) :
    List (List Nat) × List Nat :=
  if 255 ≤ acc.2.length then (acc.1 ++ [acc.2], [b]) else (acc.1, acc.2 ++ [b])

/-- The bytes of the literal `b"No response"`. -/
def noResponseBytes : List Nat :=
  strBytes "No response".data

/-- Models `DnsHandler::chunk_response`: split the answer byte-wise into chunks of at
most 255 bytes; an empty answer yields the single chunk `"No response"`. -/
def chunk_response (s : List Nat) : List (List Nat) :=
  let r := s.foldl chunkStep ([], [])
  let chunks := if r.2 ≠ [] then r.1 ++ [r.2] else r.1
  if chunks = [] then [noResponseBytes] else chunks

/-- Models `DnsHandler::send_error_response`: echo id, opcode flags and question,
set the given RCODE, no answers. -/
def send_error_response (req : DnsRequest) (rc : RCode) : DnsResponse :=
  { id := req.id
    response_code := rc
    authoritative := true
    recursion_desired := req.recursion_desired
    recursion_available := false
    query_name := req.name
    query_type := req.qtype
    answers := [] }

/-- Models `DnsHandler::send_txt_response`: NoError reply carrying one TXT record
per chunk of the response text. -/
def send_txt_response (req : DnsRequest) (text : List Char) : DnsResponse :=
  { id := req.id
    response_code := RCode.NoError
    authoritative := true
    recursion_desired := req.recursion_desired
    recursion_available := false
    query_name := req.name
    query_type := req.qtype
    answers := chunk_response (strBytes text) }

/-- The handler's response cache `HashMap<String, (String, Instant)>`,
modelled as an association list of (question, response, insertion second). -/
abbrev HandlerCache := List (List Char × List Char × Nat)

/-- Models `HashMap::get`. -/
def cacheFind (cache : HandlerCache) (k : List Char) :
    Option (List Char × Nat) :=
  (cache.find? (fun e => e.1 = k)).map (fun e => e.2)

/-- Models `HashMap::insert`: replace the entry if the key is present, else add it. -/
def cacheInsert (cache : HandlerCache) (k v : List Char) (ts : Nat) :
    HandlerCache :=
  if (cache.find? (fun e => e.1 = k)).isSome then
    cache.map (fun e => if e.1 = k then (k, v, ts) else e)
  else
    cache ++ [(k, v, ts)]

/-- The `config.rate_limit.enabled` switch consulted by the handler. -/
structure HandlerConfig where
  rate_limit_enabled : Bool

/-- The LLM branch of `handle_request`: on success cache the response and
reply with TXT records, on failure reply `ServFail` (nothing cached). -/
def handleLlm (llmQuery : List Char → Except (List Char) (List Char))
    (now : Nat) (cache : HandlerCache) (req : DnsRequest)
    (question : List Char) : DnsResponse × HandlerCache :=
  match llmQuery question with
  | Except.ok response =>
      (send_txt_response req response, cacheInsert cache question response now)
  | Except.error _ => (send_error_response req RCode.ServFail, cache)

/-- Models `DnsHandler::handle_request`.  `allowed` is the rate limiter's verdict for
this client, `llmQuery` is `LlmClient::query`, `now` the current second.
Returns the reply sent plus the updated cache, or — when
`extract_question_from_domain` fails and the `?` operator propagates its
error — `Except.error`, in which case no reply of any kind is produced
(the server task merely logs the error). -/
def handle_request (cfg : HandlerConfig) (allowed : Bool)
    (llmQuery : List Char → Except (List Char) (List Char))
    (now : Nat) (cache : HandlerCache) (req : DnsRequest) :
    Except (List Char) (DnsResponse × HandlerCache) :=
  if cfg.rate_limit_enabled && !allowed then
    Except.ok (send_error_response req RCode.ServFail, cache)
  else if req.qtype ≠ QType.TXT then
    Except.ok (send_error_response req RCode.NotImp, cache)
  else
    match extract_question_from_domain req.name with
    | Except.error e => Except.error e
    | Except.ok question =>
      if question = [] then
        Except.ok (send_error_response req RCode.FormErr, cache)
      else
        match cacheFind cache question with
        | some (cached, ts) =>
          if now - ts < 300 then
            Except.ok (send_txt_response req cached, cache)
          else
            Except.ok (handleLlm llmQuery now cache req question)
        | none => Except.ok (handleLlm llmQuery now cache req question)

/-! ### LLM client truncation (src/llm.rs, `LlmClient::query`) -/

/-- The truncation `LlmClient::query` applies to a successful backend output
(byte-wise): outputs longer than `255 * 16` bytes keep their first 4080 bytes
and get `"..."` appended. -/
def llmTruncate (response : List Nat) : List Nat :=
  let maxLength := 255 * 16
  if maxLength < response.length then
    response.take maxLength ++ strBytes "...".data
  else
    response

/-! ### Response cache (src/utils/cache.rs) -/

/-- Models `CacheEntry<T>` with `T = String`; instants are whole seconds. -/
structure CacheEntry where
  value : List Char
  created_at : Nat
  last_accessed : Nat
  access_count : Nat
  ttl : Nat
deriving DecidableEq

/-- Models `CacheEntry::is_expired`: `created_at.elapsed() > ttl`. -/
def CacheEntry.is_expired (now : Nat) (e : CacheEntry) : Bool :=
  e.ttl < now - e.created_at

/-- Models `CacheEntry::touch`. -/
def CacheEntry.touch (now : Nat) (e : CacheEntry) : CacheEntry :=
  { e with last_accessed := now, access_count := e.access_count + 1 }

/-- The cache map, as an association list. -/
abbrev CacheMap := List (List Char × CacheEntry)

/-- Stable insertion into a list sorted by the comparator (used to model the
stable `Vec::sort_by`). -/
def insertLe {α : Type} (le : α → α → Bool) (x : α) : List α → List α
  | [] => [x]
  | y :: ys => if le x y then x :: y :: ys else y :: insertLe le x ys

/-- Stable sort by a comparator, modelling `Vec::sort_by`. -/
def sortByLe {α : Type} (le : α → α → Bool) : List α → List α
  | [] => []
  | x :: xs => insertLe le x (sortByLe le xs)

/-- Models `Cache::evict_entries`: drop expired entries; if still at capacity, sort
ascending by `last_accessed` and keep the first `max_size / 2` entries. -/
def evict_entries (now maxSize : Nat) (entries : CacheMap) : CacheMap :=
  let entries := entries.filter (fun e => !e.2.is_expired now)
  if maxSize ≤ entries.length then
    (sortByLe (fun a b => a.2.last_accessed ≤ b.2.last_accessed) entries).take
      (maxSize / 2)
  else
    entries

/-- Key lookup in the cache map. -/
def mapFind (entries : CacheMap) (k : List Char) : Option CacheEntry :=
  (entries.find? (fun e => e.1 = k)).map (fun e => e.2)

/-- Models `HashMap::insert` on the cache map. -/
def mapInsert (entries : CacheMap) (k : List Char) (e : CacheEntry) :
    CacheMap :=
  if (entries.find? (fun p => p.1 = k)).isSome then
    entries.map (fun p => if p.1 = k then (k, e) else p)
  else
    entries ++ [(k, e)]

/-- Models `Cache::set_with_ttl`: evict when at capacity, then insert the fresh
entry. -/
def set_with_ttl (now maxSize : Nat) (entries : CacheMap)
    (k v : List Char) (ttl : Nat) : CacheMap :=
  let entries :=
    if maxSize ≤ entries.length then evict_entries now maxSize entries
    else entries
  mapInsert entries k
    { value := v, created_at := now, last_accessed := now, access_count := 0,
      ttl := ttl }

/-- Models `Cache::get`: remove the entry if expired; otherwise touch it and return
its value.  Returns the value and the updated map. -/
def cache_get (now : Nat) (entries : CacheMap) (k : List Char) :
    Option (List Char) × CacheMap :=
  match mapFind entries k with
  | some e =>
    if e.is_expired now then
      (none, entries.filter (fun p => p.1 ≠ k))
    else
      (some e.value, entries.map (fun p => if p.1 = k then (k, e.touch now) else p))
  | none => (none, entries)

/-! ### Token-bucket rate limiter (src/utils/rate_limiter.rs) -/

/-- Models `TokenBucket`: real-valued tokens, modelled over `ℚ`. -/
structure TokenBucket where
  tokens : ℚ
  last_refill : ℚ
  capacity : ℚ
  refill_rate : ℚ
deriving DecidableEq

/-- Models `TokenBucket::new`: starts full. -/
def TokenBucket.new (capacity refill_rate now : ℚ) : TokenBucket :=
  { tokens := capacity, last_refill := now, capacity := capacity,
    refill_rate := refill_rate }

/-- Models `TokenBucket::refill`: add `elapsed * refill_rate` tokens, capped at
capacity. -/
def TokenBucket.refill (b : TokenBucket) (now : ℚ) : TokenBucket :=
  let elapsed := now - b.last_refill
  { b with tokens := min (b.tokens + elapsed * b.refill_rate) b.capacity,
           last_refill := now }

/-- Models `TokenBucket::try_consume`. -/
def TokenBucket.try_consume (b : TokenBucket) (n now : ℚ) :
    Bool × TokenBucket :=
  let b := b.refill now
  if n ≤ b.tokens then (true, { b with tokens := b.tokens - n })
  else (false, b)

/-- Models `RateLimiter`: per-address buckets (addresses as `ℕ`). -/
structure RateLimiter where
  buckets : List (Nat × TokenBucket)
  capacity : ℚ
  refill_rate : ℚ
  last_cleanup : ℚ

/-- Models `RateLimiter::new`: `refill_rate = requests_per_minute / 60` tokens per
second, `capacity = burst_size`. -/
def RateLimiter.new (requests_per_minute burst_size : Nat) (now : ℚ) :
    RateLimiter :=
  { buckets := [], capacity := (burst_size : ℚ),
    refill_rate := (requests_per_minute : ℚ) / 60, last_cleanup := now }

/-- Models `RateLimiter::cleanup_if_needed`: every 300 s, drop buckets idle for
600 s or more. -/
def RateLimiter.cleanup_if_needed (rl : RateLimiter) (now : ℚ) : RateLimiter :=
  if 300 ≤ now - rl.last_cleanup then
    { rl with
      buckets := rl.buckets.filter (fun p => now - p.2.last_refill < 600)
      last_cleanup := now }
  else rl

/-- Replace the bucket stored for `addr`. -/
def updateBucket (buckets : List (Nat × TokenBucket)) (addr : Nat)
    (b : TokenBucket) : List (Nat × TokenBucket) :=
  buckets.map (fun p => if p.1 = addr then (addr, b) else p)

/-- Models `RateLimiter::allow_request`: run the periodic cleanup, lazily create a
full bucket for a new address, and try to consume one token. -/
def RateLimiter.allow_request (rl : RateLimiter) (addr : Nat) (now : ℚ) :
    Bool × RateLimiter :=
  let rl := rl.cleanup_if_needed now
  match (rl.buckets.find? (fun p => p.1 = addr)).map (fun p => p.2) with
  | some b =>
    let (r, b') := b.try_consume 1 now
    (r, { rl with buckets := updateBucket rl.buckets addr b' })
  | none =>
    let b := TokenBucket.new rl.capacity rl.refill_rate now
    let (r, b') := b.try_consume 1 now
    (r, { rl with buckets := updateBucket (rl.buckets ++ [(addr, b)]) addr b' })

/-- Feed a sequence of call instants from one client through the limiter,
collecting each `allow_request` verdict. -/
def runAllow (rl : RateLimiter) (addr : Nat) : List ℚ → List Bool
  | [] => []
  | t :: ts =>
    (rl.allow_request addr t).1 :: runAllow (rl.allow_request addr t).2 addr ts

/-! ### Helper lemmas: characters -/

theorem toNat_ofNat_valid (m : Nat) (h : m.isValidChar) :
    (Char.ofNat m).toNat = m := by
  simp only [Char.ofNat, dif_pos h, Char.ofNatAux, Char.toNat]
  simp [UInt32.toNat]

theorem toLower_idem (c : Char) : c.toLower.toLower = c.toLower := by
  unfold Char.toLower
  by_cases h : c.toNat ≥ 65 ∧ c.toNat ≤ 90
  · have hv : (c.toNat + 32).isValidChar := by
      constructor
      show c.toNat + 32 < 0xd800
      omega
    rw [if_pos h, toNat_ofNat_valid _ hv, if_neg (by omega)]
  · rw [if_neg h, if_neg h]

theorem allowed_whitespace_eq {c : Char} (hc : allowedChar c = true) :
    Char.isWhitespace c = (c == ' ') := by
  have ht : c ≠ '\t' := by rintro rfl; revert hc; decide
  have hr : c ≠ '\r' := by rintro rfl; revert hc; decide
  have hn : c ≠ '\n' := by rintro rfl; revert hc; decide
  simp [Char.isWhitespace, ht, hr, hn, beq_eq_decide]

/-! ### Helper lemmas: word-pattern stripping -/

theorem dropWordCI_eq_append {w s rest : List Char}
    (h : dropWordCI w s = some rest) : ∃ t, s = t ++ rest ∧ t.length = w.length := by
  induction w generalizing s with
  | nil =>
    have hs : s = rest := by simp [dropWordCI] at h; exact h
    exact ⟨[], by simp [hs], rfl⟩
  | cons a ws ih =>
    match s with
    | [] => simp [dropWordCI] at h
    | c :: cs =>
      rw [dropWordCI] at h
      split at h
      · obtain ⟨t, ht, hlen⟩ := ih h
        exact ⟨c :: t, by simp [ht], by simp [hlen]⟩
      · exact absurd h (by simp)

theorem dropMatched_eq_append {words : List (List Char)} {s rest : List Char}
    (h : dropMatched words s = some rest) : ∃ t, t ≠ [] ∧ s = t ++ rest := by
  induction words with
  | nil => simp [dropMatched] at h
  | cons w ws ih =>
    match w with
    | [] =>
      rw [dropMatched] at h
      exact ih h
    | a :: w' =>
      rw [dropMatched] at h
      cases hdw : dropWordCI (a :: w') s with
      | some r =>
        rw [hdw] at h
        obtain ⟨t, ht, hlen⟩ := dropWordCI_eq_append hdw
        have hrest : r = rest := by simpa using h
        refine ⟨t, ?_, hrest ▸ ht⟩
        intro hnil
        rw [hnil] at hlen
        simp at hlen
      | none =>
        rw [hdw] at h
        exact ih h

theorem dropMatched_length {words : List (List Char)} {s rest : List Char}
    (h : dropMatched words s = some rest) : rest.length < s.length := by
  obtain ⟨t, ht, rfl⟩ := dropMatched_eq_append h
  have : 0 < t.length := List.length_pos.mpr ht
  simp only [List.length_append]
  omega

theorem mem_stripWordsFuel {words : List (List Char)} :
    ∀ {f : Nat} {s : List Char} {c : Char}, c ∈ stripWordsFuel words f s → c ∈ s := by
  intro f
  induction f with
  | zero => intro s c h; simpa [stripWordsFuel] using h
  | succ f ih =>
    intro s c h
    match s with
    | [] => simp [stripWordsFuel] at h
    | a :: as =>
      rw [stripWordsFuel] at h
      cases hdm : dropMatched words (a :: as) with
      | some rest =>
        rw [hdm] at h
        obtain ⟨t, _, heq⟩ := dropMatched_eq_append hdm
        rw [heq]
        exact List.mem_append_right _ (ih h)
      | none =>
        rw [hdm] at h
        rcases List.mem_cons.mp h with h | h
        · exact h ▸ List.mem_cons_self _ _
        · exact List.mem_cons_of_mem _ (ih h)

theorem length_stripWordsFuel_le {words : List (List Char)} :
    ∀ {f : Nat} (s : List Char), (stripWordsFuel words f s).length ≤ s.length := by
  intro f
  induction f with
  | zero => intro s; simp [stripWordsFuel]
  | succ f ih =>
    intro s
    match s with
    | [] => simp [stripWordsFuel]
    | a :: as =>
      rw [stripWordsFuel]
      cases hdm : dropMatched words (a :: as) with
      | some rest =>
        have h1 := ih rest
        have h2 := dropMatched_length hdm
        show (stripWordsFuel words f rest).length ≤ (a :: as).length
        omega
      | none =>
        have h1 := ih as
        show (a :: stripWordsFuel words f as).length ≤ (a :: as).length
        simp only [List.length_cons]
        omega

theorem stripWordsFuel_of_no_match {words : List (List Char)} :
    ∀ (f : Nat) {s : List Char}, hasWordMatch words s = false →
      stripWordsFuel words f s = s := by
  intro f
  induction f with
  | zero => intro s _; rfl
  | succ f ih =>
    intro s h
    match s with
    | [] => rfl
    | a :: as =>
      rw [hasWordMatch, Bool.or_eq_false_iff] at h
      rw [stripWordsFuel]
      cases hdm : dropMatched words (a :: as) with
      | some rest => rw [hdm] at h; simp at h
      | none =>
        show a :: stripWordsFuel words f as = a :: as
        rw [ih h.2]

theorem stripWords_length_le (words : List (List Char)) (s : List Char) :
    (stripWords words s).length ≤ s.length :=
  length_stripWordsFuel_le s

theorem mem_stripWords {words : List (List Char)} {s : List Char} {c : Char}
    (h : c ∈ stripWords words s) : c ∈ s :=
  mem_stripWordsFuel h

theorem stripWords_of_no_match {words : List (List Char)} {s : List Char}
    (h : hasWordMatch words s = false) : stripWords words s = s :=
  stripWordsFuel_of_no_match _ h

/-! ### Helper lemmas: whitespace splitting -/

theorem splitOnP_mem {α : Type} {p : α → Bool} :
    ∀ {t part : List α}, part ∈ t.splitOnP p → ∀ {c}, c ∈ part →
      c ∈ t ∧ p c = false := by
  intro t
  induction t with
  | nil =>
    intro part hpart c hc
    rw [List.splitOnP_nil, List.mem_singleton] at hpart
    subst hpart
    simp at hc
  | cons x xs ih =>
    intro part hpart c hc
    rw [List.splitOnP_cons] at hpart
    by_cases hpx : p x = true
    · rw [if_pos hpx] at hpart
      rcases List.mem_cons.mp hpart with h | h
      · subst h; simp at hc
      · obtain ⟨h1, h2⟩ := ih h hc
        exact ⟨List.mem_cons_of_mem _ h1, h2⟩
    · rw [if_neg hpx] at hpart
      obtain ⟨hd, tl, hsp⟩ := List.exists_cons_of_ne_nil (List.splitOnP_ne_nil p xs)
      rw [hsp, List.modifyHead_cons] at hpart
      rcases List.mem_cons.mp hpart with h | h
      · subst h
        rcases List.mem_cons.mp hc with h | h
        · subst h
          exact ⟨List.mem_cons_self _ _, Bool.not_eq_true _ ▸ hpx⟩
        · obtain ⟨h1, h2⟩ := ih (hsp ▸ List.mem_cons_self hd tl) h
          exact ⟨List.mem_cons_of_mem _ h1, h2⟩
      · obtain ⟨h1, h2⟩ := ih (hsp ▸ List.mem_cons_of_mem hd h) hc
        exact ⟨List.mem_cons_of_mem _ h1, h2⟩

theorem splitOnP_congr {α : Type} {p q : α → Bool} :
    ∀ {t : List α}, (∀ c ∈ t, p c = q c) → t.splitOnP p = t.splitOnP q := by
  intro t
  induction t with
  | nil => intro _; rw [List.splitOnP_nil, List.splitOnP_nil]
  | cons x xs ih =>
    intro h
    rw [List.splitOnP_cons, List.splitOnP_cons, h x (List.mem_cons_self x xs),
      ih (fun c hc => h c (List.mem_cons_of_mem x hc))]

theorem mem_intersperse {α : Type} {sep : α} :
    ∀ {l : List α} {x : α}, x ∈ l.intersperse sep → x = sep ∨ x ∈ l := by
  intro l
  induction l with
  | nil => intro x h; simp at h
  | cons a t ih =>
    intro x h
    match t with
    | [] =>
      rw [List.intersperse_singleton, List.mem_singleton] at h
      exact Or.inr (h ▸ List.mem_singleton_self a)
    | b :: t' =>
      rw [List.intersperse_cons₂] at h
      rcases List.mem_cons.mp h with h | h
      · exact Or.inr (h ▸ List.mem_cons_self _ _)
      · rcases List.mem_cons.mp h with h | h
        · exact Or.inl h
        · rcases ih h with h | h
          · exact Or.inl h
          · exact Or.inr (List.mem_cons_of_mem _ h)

theorem mem_intercalate {α : Type} {sep : List α} {P : List (List α)} {c : α}
    (h : c ∈ List.intercalate sep P) : c ∈ sep ∨ ∃ part ∈ P, c ∈ part := by
  rw [List.intercalate, List.mem_flatten] at h
  obtain ⟨l, hl, hc⟩ := h
  rcases mem_intersperse hl with h | h
  · exact Or.inl (h ▸ hc)
  · exact Or.inr ⟨l, h, hc⟩

theorem splitOnP_length {α : Type} {p : α → Bool} :
    ∀ (t : List α),
      ((t.splitOnP p).map List.length).sum + (t.splitOnP p).length
        = t.length + 1 := by
  intro t
  induction t with
  | nil => rw [List.splitOnP_nil]; rfl
  | cons x xs ih =>
    rw [List.splitOnP_cons]
    by_cases hpx : p x = true
    · rw [if_pos hpx]
      simp only [List.map_cons, List.sum_cons, List.length_cons, List.length_nil]
      omega
    · rw [if_neg hpx]
      obtain ⟨hd, tl, hsp⟩ := List.exists_cons_of_ne_nil (List.splitOnP_ne_nil p xs)
      rw [hsp] at ih
      rw [hsp, List.modifyHead_cons]
      simp only [List.map_cons, List.sum_cons, List.length_cons] at ih ⊢
      omega

theorem sum_map_length_filter_ne_nil {α : Type} [DecidableEq α] :
    ∀ (P : List (List α)),
      ((P.filter (fun part => part ≠ [])).map List.length).sum
        = (P.map List.length).sum := by
  intro P
  induction P with
  | nil => rfl
  | cons a t ih =>
    by_cases ha : a = []
    · subst ha
      rw [List.filter_cons_of_neg (by simp)]
      simpa using ih
    · rw [List.filter_cons_of_pos (by simpa using ha)]
      simp only [List.map_cons, List.sum_cons]
      omega

theorem intercalate_cons₂ {α : Type} (sep a b : List α) (t : List (List α)) :
    List.intercalate sep (a :: b :: t) = a ++ sep ++ List.intercalate sep (b :: t) := by
  rw [List.intercalate, List.intercalate, List.intersperse_cons₂,
    List.flatten_cons, List.flatten_cons, List.append_assoc]

theorem intercalate_singleton {α : Type} (sep a : List α) :
    List.intercalate sep [a] = a := by
  rw [List.intercalate, List.intersperse_singleton, List.flatten_cons,
    List.flatten_nil, List.append_nil]

theorem length_intercalate_space :
    ∀ (P : List (List Char)), P ≠ [] →
      (List.intercalate [' '] P).length + 1 = (P.map List.length).sum + P.length := by
  intro P
  induction P with
  | nil => intro h; exact absurd rfl h
  | cons a t ih =>
    intro _
    match t with
    | [] =>
      rw [intercalate_singleton]
      simp
    | b :: t' =>
      rw [intercalate_cons₂]
      have hih := ih (by simp)
      simp only [List.length_append, List.map_cons, List.sum_cons,
        List.length_cons, List.length_nil] at hih ⊢
      omega

theorem split_whitespace_parts {t part : List Char}
    (h : part ∈ split_whitespace t) :
    part ≠ [] ∧ ∀ c ∈ part, Char.isWhitespace c = false := by
  rw [split_whitespace, List.mem_filter] at h
  refine ⟨by simpa using h.2, fun c hc => (splitOnP_mem h.1 hc).2⟩

theorem mem_of_mem_split_whitespace {t part : List Char} {c : Char}
    (hpart : part ∈ split_whitespace t) (hc : c ∈ part) : c ∈ t := by
  rw [split_whitespace, List.mem_filter] at hpart
  exact (splitOnP_mem hpart.1 hc).1

theorem normalizeWhitespace_length_le (t : List Char) :
    (normalizeWhitespace t).length ≤ t.length := by
  rw [normalizeWhitespace]
  by_cases hP : split_whitespace t = []
  · rw [hP]
    simp [List.intercalate]
  · have h1 := length_intercalate_space _ hP
    have h2 := @splitOnP_length Char Char.isWhitespace t
    have h3 : ((split_whitespace t).map List.length).sum
        = ((t.splitOnP Char.isWhitespace).map List.length).sum :=
      sum_map_length_filter_ne_nil _
    have h4 : (split_whitespace t).length ≤ (t.splitOnP Char.isWhitespace).length :=
      List.length_filter_le _ _
    omega

theorem mem_normalizeWhitespace {t : List Char} {c : Char}
    (h : c ∈ normalizeWhitespace t) : c = ' ' ∨ c ∈ t := by
  rcases mem_intercalate h with h | ⟨part, hpart, hc⟩
  · exact Or.inl (List.mem_singleton.mp h)
  · exact Or.inr (mem_of_mem_split_whitespace hpart hc)

theorem split_whitespace_intercalate {P : List (List Char)}
    (hP : ∀ part ∈ P, part ≠ [] ∧ ∀ c ∈ part, Char.isWhitespace c = false) :
    split_whitespace (List.intercalate [' '] P) = P := by
  match P with
  | [] => rfl
  | a :: t =>
    have hx : ∀ l ∈ a :: t, ' ' ∉ l := by
      intro l hl hsp
      have := (hP l hl).2 _ hsp
      simp at this
    have hcongr : (List.intercalate [' '] (a :: t)).splitOnP Char.isWhitespace
        = (List.intercalate [' '] (a :: t)).splitOn ' ' := by
      rw [List.splitOn]
      refine splitOnP_congr ?_
      intro c hc
      rcases mem_intercalate hc with h | ⟨part, hpart, hcp⟩
      · rw [List.mem_singleton] at h
        subst h
        decide
      · have hw := (hP part hpart).2 c hcp
        have hne : c ≠ ' ' := by
          intro h
          subst h
          simp at hw
        rw [hw, beq_eq_false_iff_ne.mpr hne]
    have hsplit : (List.intercalate [' '] (a :: t)).splitOn ' ' = a :: t :=
      List.splitOn_intercalate (a :: t) ' ' hx (List.cons_ne_nil a t)
    rw [split_whitespace, hcongr, hsplit, List.filter_eq_self.mpr ?_]
    intro part hpart
    simpa using (hP part hpart).1

/-! ### Helper lemmas: the sanitizer pipeline -/

theorem truncate200_subset (s : List Char) : truncate200 s ⊆ s := by
  rw [truncate200]
  split
  · exact List.take_subset _ _
  · exact fun _ h => h

theorem truncate200_length_le (s : List Char) : (truncate200 s).length ≤ 200 := by
  rw [truncate200]
  split
  · simp
  · omega

theorem truncate200_of_le {s : List Char} (h : s.length ≤ 200) :
    truncate200 s = s := by
  rw [truncate200, if_neg (by omega)]

theorem sanitize_query_length_le_200 (q : List Char) :
    (sanitize_query q).length ≤ 200 :=
  truncate200_length_le _

theorem sanitize_query_mem_facts {q : List Char} {c : Char}
    (h : c ∈ sanitize_query q) :
    allowedChar c = true ∧ dangerousChar c = false ∧ c.toLower = c := by
  rw [sanitize_query] at h
  have h1 := truncate200_subset _ h
  rcases mem_normalizeWhitespace h1 with hsp | h2
  · subst hsp
    exact ⟨by decide, by decide, by decide⟩
  · have hallow : allowedChar c = true := by
      rw [filterAllowed, List.mem_filter] at h2
      exact h2.2
    have h3 : c ∈ removeDangerousChars (stripWords shellWords (stripWords sqlWords
        (stripWords scriptWords (q.map Char.toLower)))) :=
      List.filter_subset' _ h2
    have hdang : dangerousChar c = false := by
      rw [removeDangerousChars, List.mem_filter] at h3
      simpa using h3.2
    have h4 : c ∈ q.map Char.toLower :=
      mem_stripWords (mem_stripWords (mem_stripWords (List.filter_subset' _ h3)))
    obtain ⟨a, _, ha⟩ := List.mem_map.mp h4
    exact ⟨hallow, hdang, ha ▸ toLower_idem a⟩

theorem map_id_of_mem {α : Type} {f : α → α} {l : List α}
    (h : ∀ a ∈ l, f a = a) : l.map f = l := by
  rw [List.map_congr_left h]
  exact List.map_id l

theorem sanitize_pre_length_le (q : List Char) :
    (normalizeWhitespace (filterAllowed (removeDangerousChars
      (stripWords shellWords (stripWords sqlWords (stripWords scriptWords
        (q.map Char.toLower))))))).length ≤ q.length := by
  refine le_trans (normalizeWhitespace_length_le _) ?_
  refine le_trans (List.length_filter_le _ _) ?_
  refine le_trans (List.length_filter_le _ _) ?_
  refine le_trans (stripWords_length_le _ _) ?_
  refine le_trans (stripWords_length_le _ _) ?_
  refine le_trans (stripWords_length_le _ _) ?_
  rw [List.length_map]

/-! ### Claim C5: sanitizer idempotence -/

/-- C5 counterexample: the spec claims `sanitize(sanitize x) = sanitize x` for
all x, but removing one `select` from `selselectect` re-assembles another
`select`, which a second pass removes. -/
theorem c5_counterexample :
    sanitize_query "selselectect".data = "select".data ∧
    sanitize_query "select".data = [] ∧
    sanitize_query (sanitize_query "selselectect".data)
      ≠ sanitize_query "selselectect".data := by
  decide

/-- C5 (amended): the sanitizer is idempotent on every input of length at most
200 bytes whose sanitized form matches none of the dangerous patterns. -/
theorem c5_sanitize_idempotent_on_clean (q : List Char)
    (hlen : q.length ≤ 200)
    (hclean : dangerousMatch (sanitize_query q) = false) :
    sanitize_query (sanitize_query q) = sanitize_query q := by
  rw [dangerousMatch, Bool.or_eq_false_iff, Bool.or_eq_false_iff,
    Bool.or_eq_false_iff] at hclean
  obtain ⟨⟨⟨hm1, hm2⟩, hm3⟩, hm4⟩ := hclean
  have hpre : sanitize_query q
      = normalizeWhitespace (filterAllowed (removeDangerousChars
          (stripWords shellWords (stripWords sqlWords (stripWords scriptWords
            (q.map Char.toLower)))))) := by
    rw [sanitize_query]
    exact truncate200_of_le (le_trans (sanitize_pre_length_le q) hlen)
  have hmap : (sanitize_query q).map Char.toLower = sanitize_query q :=
    map_id_of_mem (fun c hc => (sanitize_query_mem_facts hc).2.2)
  have hst1 : stripWords scriptWords (sanitize_query q) = sanitize_query q :=
    stripWords_of_no_match hm1
  have hst2 : stripWords sqlWords (sanitize_query q) = sanitize_query q :=
    stripWords_of_no_match hm2
  have hst3 : stripWords shellWords (sanitize_query q) = sanitize_query q :=
    stripWords_of_no_match hm3
  have hrmd : removeDangerousChars (sanitize_query q) = sanitize_query q := by
    rw [removeDangerousChars, List.filter_eq_self]
    intro c hc
    simp [(sanitize_query_mem_facts hc).2.1]
  have hfa : filterAllowed (sanitize_query q) = sanitize_query q := by
    rw [filterAllowed, List.filter_eq_self]
    intro c hc
    exact (sanitize_query_mem_facts hc).1
  have hnws : normalizeWhitespace (sanitize_query q) = sanitize_query q := by
    have hround : split_whitespace (sanitize_query q)
        = split_whitespace (filterAllowed (removeDangerousChars
            (stripWords shellWords (stripWords sqlWords (stripWords scriptWords
              (q.map Char.toLower)))))) := by
      rw [hpre, normalizeWhitespace]
      exact split_whitespace_intercalate (fun part hp => split_whitespace_parts hp)
    rw [normalizeWhitespace, hround, ← normalizeWhitespace, ← hpre]
  have htr : truncate200 (sanitize_query q) = sanitize_query q :=
    truncate200_of_le (sanitize_query_length_le_200 q)
  conv_lhs => rw [sanitize_query]
  rw [hmap, hst1, hst2, hst3, hrmd, hfa, hnws, htr]

/-- C5 witness: the amended idempotence applied at a concrete clean input. -/
theorem c5_witness :
    ("hello world".data.length ≤ 200 ∧
      dangerousMatch (sanitize_query "hello world".data) = false) ∧
    sanitize_query (sanitize_query "hello world".data)
      = sanitize_query "hello world".data :=
  ⟨⟨by decide, by decide⟩,
    c5_sanitize_idempotent_on_clean "hello world".data (by decide) (by decide)⟩

/-! ### Claim C6: is_safe characterization -/

/-- C6 counterexample: on `"abc\t\t"` sanitization removes 2 of 5 bytes
(40 % > 25 %), no dangerous pattern matches and the sanitized length is 3,
yet `is_safe` returns `true`, because the shrink check compares against
`len * 3 / 4` in integer arithmetic (`⌊15/4⌋ = 3`). -/
theorem c6_counterexample :
    is_safe "abc\t\t".data = true ∧
    dangerousMatch "abc\t\t".data = false ∧
    (sanitize_query "abc\t\t".data).length = 3 ∧
    "abc\t\t".data.length = 5 ∧
    4 * ("abc\t\t".data.length - (sanitize_query "abc\t\t".data).length)
      > "abc\t\t".data.length := by
  decide

/-- C6 (amended): `is_safe` returns false exactly when a dangerous pattern
matches the original, the post-sanitize length is below 3, or the sanitized
length is below `len * 3 / 4` computed in integer arithmetic.  (The source's
`> 200` check is unreachable because sanitized output never exceeds 200
bytes.) -/
theorem c6_is_safe_characterization (q : List Char) :
    is_safe q = false ↔
      (dangerousMatch q = true ∨ (sanitize_query q).length < 3 ∨
        (sanitize_query q).length < q.length * 3 / 4) := by
  have h200 := sanitize_query_length_le_200 q
  simp only [is_safe]
  split_ifs with h1 h2 h3
  · exact iff_of_true rfl (Or.inr (Or.inr h1))
  · exact iff_of_true rfl (Or.inl h2)
  · have hlt : (sanitize_query q).length < 3 := by
      rw [Bool.or_eq_true] at h3
      rcases h3 with h | h
      · simpa using h
      · exact absurd (by simpa using h) (by omega)
    exact iff_of_true rfl (Or.inr (Or.inl hlt))
  · refine iff_of_false (by simp) ?_
    simp only [Bool.or_eq_true, decide_eq_true_eq, not_or] at h3
    rintro (h | h | h)
    · exact h2 h
    · exact h3.1 h
    · exact h1 h

/-! ### Claim C9: sanitized output has no dangerous characters -/

/-- C9: every character of a sanitized query avoids the dangerous class
`[<>"'&]` — the quote characters are in the allowlist, but the dangerous-char
pattern deletes them before the allowlist filter runs. -/
theorem c9_sanitize_no_dangerous_chars (q : List Char) (c : Char)
    (h : c ∈ sanitize_query q) :
    dangerousChar c = false ∧
    c ≠ '<' ∧ c ≠ '>' ∧ c ≠ '"' ∧ c ≠ '\'' ∧ c ≠ '&' := by
  have hd := (sanitize_query_mem_facts h).2.1
  refine ⟨hd, ?_, ?_, ?_, ?_, ?_⟩ <;> rintro rfl <;> revert hd <;> decide

/-- C9 witness: applied at a concrete input whose raw form contains `<`. -/
theorem c9_witness :
    ('a' ∈ sanitize_query "a<b".data) ∧ dangerousChar 'a' = false :=
  ⟨by decide, (c9_sanitize_no_dangerous_chars "a<b".data 'a' (by decide)).1⟩

/-! ### Claim C8: TXT chunking -/

theorem chunk_fold_invariant :
    ∀ (s : List Nat) (chunks : List (List Nat)) (cur : List Nat),
      (∀ c ∈ chunks, c.length = 255) → cur.length ≤ 255 →
      (∀ c ∈ (s.foldl chunkStep (chunks, cur)).1, c.length = 255) ∧
      (s.foldl chunkStep (chunks, cur)).2.length ≤ 255 ∧
      (s.foldl chunkStep (chunks, cur)).1.flatten ++ (s.foldl chunkStep (chunks, cur)).2
        = chunks.flatten ++ cur ++ s := by
  intro s
  induction s with
  | nil =>
    intro chunks cur h1 h2
    exact ⟨h1, h2, by simp⟩
  | cons b s ih =>
    intro chunks cur h1 h2
    rw [List.foldl_cons]
    by_cases hfull : 255 ≤ cur.length
    · have hstep : chunkStep (chunks, cur) b = (chunks ++ [cur], [b]) := by
        rw [chunkStep, if_pos hfull]
      rw [hstep]
      have hcur : cur.length = 255 := le_antisymm h2 hfull
      have h1' : ∀ c ∈ chunks ++ [cur], c.length = 255 := by
        intro c hc
        rcases List.mem_append.mp hc with h | h
        · exact h1 c h
        · rw [List.mem_singleton] at h
          rw [h, hcur]
      obtain ⟨g1, g2, g3⟩ := ih (chunks ++ [cur]) [b] h1' (by simp)
      refine ⟨g1, g2, ?_⟩
      rw [g3]
      simp
    · have hstep : chunkStep (chunks, cur) b = (chunks, cur ++ [b]) := by
        rw [chunkStep, if_neg hfull]
      rw [hstep]
      obtain ⟨g1, g2, g3⟩ := ih chunks (cur ++ [b])
        h1 (by simp only [List.length_append, List.length_singleton]; omega)
      refine ⟨g1, g2, ?_⟩
      rw [g3]
      simp

/-- C8: every chunk holds at most 255 bytes; for a nonempty answer the chunks
concatenate to exactly the answer, and the empty answer yields the single
literal chunk `"No response"`. -/
theorem c8_chunk_response_spec (s : List Nat) :
    (∀ chunk ∈ chunk_response s, chunk.length ≤ 255) ∧
    (s ≠ [] → (chunk_response s).flatten = s) ∧
    (s = [] → chunk_response s = [noResponseBytes]) := by
  obtain ⟨h1, h2, h3⟩ := chunk_fold_invariant s [] [] (by simp) (by simp)
  simp only [List.flatten_nil, List.nil_append] at h3
  refine ⟨?_, ?_, ?_⟩
  · intro chunk hc
    rw [chunk_response] at hc
    split at hc
    all_goals split at hc
    · rw [List.mem_singleton] at hc
      rw [hc]
      decide
    · rcases List.mem_append.mp hc with h | h
      · exact le_of_eq (h1 _ h)
      · rw [List.mem_singleton] at h
        exact h ▸ h2
    · rw [List.mem_singleton] at hc
      rw [hc]
      decide
    · exact le_of_eq (h1 _ hc)
  · intro hs
    rw [chunk_response]
    by_cases hc2 : (s.foldl chunkStep ([], [])).2 = []
    · have hr1 : (s.foldl chunkStep ([], [])).1 ≠ [] := by
        intro h0
        apply hs
        rw [← h3, h0, hc2]
        rfl
      rw [if_neg (by simp [hc2, hr1]), if_neg (by simp [hc2])]
      conv_rhs => rw [← h3, hc2]
      rw [List.append_nil]
    · rw [if_neg (by simp [hc2]), if_pos hc2, List.flatten_append]
      simpa using h3
  · intro hs
    subst hs
    rfl

/-- C8 witness: the chunking specification applied at concrete answers. -/
theorem c8_witness :
    (chunk_response (strBytes "hi".data)).flatten = strBytes "hi".data ∧
    chunk_response [] = [noResponseBytes] :=
  ⟨(c8_chunk_response_spec (strBytes "hi".data)).2.1 (by decide),
   (c8_chunk_response_spec []).2.2 rfl⟩

/-! ### Claim C4: LLM response truncation -/

/-- C4: on a 4081-byte backend output, `LlmClient::query` keeps the first
4080 bytes and appends the 3-byte `"..."`, returning 4083 bytes — more than
the 255×16 = 4080 bytes its own comment promises to fit. -/
theorem c4_truncation_exceeds_bound :
    llmTruncate (List.replicate 4081 97)
      = List.replicate 4080 97 ++ strBytes "...".data ∧
    (llmTruncate (List.replicate 4081 97)).length = 4083 ∧
    255 * 16 < (llmTruncate (List.replicate 4081 97)).length := by
  have h : llmTruncate (List.replicate 4081 97)
      = List.replicate 4080 97 ++ strBytes "...".data := by
    rw [llmTruncate, List.length_replicate, if_pos (by norm_num),
      List.take_replicate]
    norm_num
  have hlen : (llmTruncate (List.replicate 4081 97)).length = 4083 := by
    rw [h, List.length_append, List.length_replicate]
    norm_num [strBytes]
  exact ⟨h, hlen, by omega⟩

/-! ### Claim C10: try_consume token accounting -/

/-- C10: a denied `try_consume(1)` leaves exactly the refilled token count (no
tokens consumed), a granted one leaves the refilled count minus one, and in
both cases the count stays within `[0, capacity]`. -/
theorem c10_try_consume_accounting (b : TokenBucket) (now : ℚ)
    (htime : b.last_refill ≤ now) (htok : 0 ≤ b.tokens)
    (hcap : 0 ≤ b.capacity) (hrate : 0 ≤ b.refill_rate) :
    ((b.try_consume 1 now).1 = false →
      (b.try_consume 1 now).2.tokens = (b.refill now).tokens) ∧
    ((b.try_consume 1 now).1 = true →
      (b.try_consume 1 now).2.tokens = (b.refill now).tokens - 1) ∧
    0 ≤ (b.try_consume 1 now).2.tokens ∧
    (b.try_consume 1 now).2.tokens ≤ b.capacity := by
  have hre : 0 ≤ (b.refill now).tokens := by
    rw [TokenBucket.refill]
    refine le_min ?_ hcap
    have : 0 ≤ (now - b.last_refill) * b.refill_rate :=
      mul_nonneg (by linarith) hrate
    linarith
  have hrc : (b.refill now).tokens ≤ b.capacity := by
    rw [TokenBucket.refill]
    exact min_le_right _ _
  rw [TokenBucket.try_consume]
  split
  · rename_i hge
    refine ⟨by simp, fun _ => rfl, ?_, ?_⟩
    · simp only
      linarith
    · simp only
      linarith
  · rename_i hlt
    exact ⟨fun _ => rfl, by simp, hre, hrc⟩

/-- C10 witness: the accounting applied at a concrete bucket. -/
theorem c10_witness :
    (((TokenBucket.mk 2 0 3 1).try_consume 1 1).1 = true →
      ((TokenBucket.mk 2 0 3 1).try_consume 1 1).2.tokens
        = ((TokenBucket.mk 2 0 3 1).refill 1).tokens - 1) ∧
    0 ≤ ((TokenBucket.mk 2 0 3 1).try_consume 1 1).2.tokens ∧
    ((TokenBucket.mk 2 0 3 1).try_consume 1 1).2.tokens ≤ (3 : ℚ) :=
  ⟨(c10_try_consume_accounting (TokenBucket.mk 2 0 3 1) 1 (by norm_num)
      (by norm_num) (by norm_num) (by norm_num)).2.1,
   (c10_try_consume_accounting (TokenBucket.mk 2 0 3 1) 1 (by norm_num)
      (by norm_num) (by norm_num) (by norm_num)).2.2.1,
   (c10_try_consume_accounting (TokenBucket.mk 2 0 3 1) 1 (by norm_num)
      (by norm_num) (by norm_num) (by norm_num)).2.2.2⟩

/-! ### Helper lemmas: the question extractor -/

theorem splitDots_ne_nil : ∀ (s : List Char), splitDots s ≠ [] := by
  intro s
  induction s with
  | nil => simp [splitDots]
  | cons c cs ih =>
    rw [splitDots]
    cases hsd : splitDots cs with
    | nil => simp
    | cons p ps => by_cases hc : c = '.' <;> simp [hc]

theorem splitDots_cons_dot (s : List Char) :
    splitDots ('.' :: s) = [] :: splitDots s := by
  rw [splitDots]
  cases hsd : splitDots s with
  | nil => exact absurd hsd (splitDots_ne_nil s)
  | cons p ps => simp

theorem splitDots_cons_ne {c : Char} (hc : c ≠ '.') {s p : List Char}
    {ps : List (List Char)} (h : splitDots s = p :: ps) :
    splitDots (c :: s) = (c :: p) :: ps := by
  rw [splitDots, h]
  simp [hc]

theorem splitDots_append {a : List Char} (ha : ∀ c ∈ a, c ≠ '.') :
    ∀ {s p : List Char} {ps : List (List Char)}, splitDots s = p :: ps →
      splitDots (a ++ s) = (a ++ p) :: ps := by
  induction a with
  | nil => intro s p ps h; simpa using h
  | cons c a' ih =>
    intro s p ps h
    have hrec := ih (fun x hx => ha x (List.mem_cons_of_mem c hx)) h
    have := splitDots_cons_ne (ha c (List.mem_cons_self c a')) hrec
    simpa using this

theorem splitDots_no_dot {a : List Char} (ha : ∀ c ∈ a, c ≠ '.') :
    splitDots a = [a] := by
  have h := @splitDots_append a ha [] [] [] rfl
  simpa using h

theorem intercalate_ne_nil {α : Type} {sep : List α} {L : List (List α)}
    (hL : L ≠ []) (hlab : ∀ l ∈ L, l ≠ []) : List.intercalate sep L ≠ [] := by
  match L with
  | [a] =>
    rw [intercalate_singleton]
    exact hlab a (List.mem_singleton_self a)
  | a :: b :: t =>
    rw [intercalate_cons₂]
    simp only [ne_eq, List.append_eq_nil]
    intro h
    exact hlab a (List.mem_cons_self _ _) h.1.1

theorem splitDots_intercalate : ∀ {L : List (List Char)}, L ≠ [] →
    (∀ l ∈ L, ∀ c ∈ l, c ≠ '.') →
    splitDots (List.intercalate ['.'] L) = L := by
  intro L
  induction L with
  | nil => intro h _; exact absurd rfl h
  | cons a t ih =>
    intro _ hdot
    match t with
    | [] =>
      rw [intercalate_singleton]
      exact splitDots_no_dot (hdot a (List.mem_singleton_self a))
    | b :: t' =>
      rw [intercalate_cons₂, List.append_assoc, List.singleton_append]
      have hX := ih (List.cons_ne_nil b t')
        (fun l hl => hdot l (List.mem_cons_of_mem a hl))
      have hdotX := splitDots_cons_dot (List.intercalate ['.'] (b :: t'))
      rw [hX] at hdotX
      have := splitDots_append (hdot a (List.mem_cons_self a _)) hdotX
      simpa using this

theorem intercalate_getLast_ne_dot : ∀ {L : List (List Char)}, L ≠ [] →
    (∀ l ∈ L, l ≠ [] ∧ ∀ c ∈ l, c ≠ '.') →
    ∃ c, (List.intercalate ['.'] L).getLast? = some c ∧ c ≠ '.' := by
  intro L
  induction L with
  | nil => intro h _; exact absurd rfl h
  | cons a t ih =>
    intro _ hlab
    match t with
    | [] =>
      rw [intercalate_singleton]
      have ha := hlab a (List.mem_singleton_self a)
      refine ⟨a.getLast ha.1, List.getLast?_eq_getLast a ha.1, ?_⟩
      exact ha.2 _ (List.getLast_mem ha.1)
    | b :: t' =>
      obtain ⟨c, hc1, hc2⟩ := ih (List.cons_ne_nil b t')
        (fun l hl => hlab l (List.mem_cons_of_mem a hl))
      have hXne : List.intercalate ['.'] (b :: t') ≠ [] := by
        intro h
        rw [h] at hc1
        simp at hc1
      refine ⟨c, ?_, hc2⟩
      rw [intercalate_cons₂, List.append_assoc, List.singleton_append,
        List.getLast?_append_of_ne_nil _ (List.cons_ne_nil _ _)]
      show (['.'] ++ List.intercalate ['.'] (b :: t')).getLast? = some c
      rw [List.getLast?_append_of_ne_nil _ hXne, hc1]

theorem trimTrailingDots_of_getLast {s : List Char} {c : Char}
    (h : s.getLast? = some c) (hc : c ≠ '.') : trimTrailingDots s = s := by
  rw [trimTrailingDots]
  have hrev : s.reverse.head? = some c := by rw [List.head?_reverse, h]
  obtain ⟨t, ht⟩ : ∃ t, s.reverse = c :: t := by
    cases hr : s.reverse with
    | nil => rw [hr] at hrev; simp at hrev
    | cons x t =>
      rw [hr] at hrev
      simp only [List.head?_cons, Option.some.injEq] at hrev
      exact ⟨t, by rw [hrev]⟩
  rw [ht, List.dropWhile_cons, if_neg (by simpa using hc), ← ht,
    List.reverse_reverse]

theorem extract_intercalate {L : List (List Char)} (h2 : 2 ≤ L.length)
    (hlab : ∀ l ∈ L, l ≠ [] ∧ ∀ c ∈ l, c ≠ '.') :
    extract_question_from_domain (List.intercalate ['.'] L)
      = Except.ok (dashUnderscoreToSpace (List.intercalate [' '] L.dropLast)) := by
  have hL : L ≠ [] := by
    intro h
    rw [h] at h2
    simp at h2
  obtain ⟨c, hc1, hc2⟩ := intercalate_getLast_ne_dot hL hlab
  have htrim := trimTrailingDots_of_getLast hc1 hc2
  have hsplit := splitDots_intercalate hL (fun l hl => (hlab l hl).2)
  rw [extract_question_from_domain, htrim, hsplit, if_neg (by omega)]

/-! ### Claim C1: extractor round-trip and cache fingerprint -/

/-- C1 counterexample: the extractor does not sanitize.  `extract("A.com")`
yields the raw `"A"`, while the sanitizer's output on the joined labels is
`"a"`; the handler caches under the raw `"A"`.  So
`extract(join(L,'.')) ≠ sanitize(join(L[:-1],' '))` and the cache key is not
the sanitizer's output. -/
theorem c1_counterexample :
    extract_question_from_domain "A.com".data = Except.ok "A".data ∧
    sanitize_query "A".data = "a".data ∧
    ("A".data : List Char) ≠ "a".data ∧
    handle_request ⟨true⟩ true (fun _ => Except.ok "r".data) 0 []
        ⟨1, "A.com".data, QType.TXT, false⟩
      = Except.ok
          (send_txt_response ⟨1, "A.com".data, QType.TXT, false⟩ "r".data,
           [("A".data, "r".data, 0)]) :=
  ⟨rfl, by decide, by decide, rfl⟩

/-- C1 (amended): for every label sequence L of length ≥ 2 whose labels are
nonempty and dot-free, extraction from `join(L,'.')` yields the raw
`join(L[:-1],' ')` with `-`,`_` replaced by spaces — not passed through the
sanitizer, not lowercased — and the handler uses exactly this raw extracted
string as the cache key when it stores the backend's response. -/
theorem c1_extract_raw_and_cache_key (L : List (List Char)) (h2 : 2 ≤ L.length)
    (hlab : ∀ l ∈ L, l ≠ [] ∧ ∀ c ∈ l, c ≠ '.')
    (idv : Nat) (rd : Bool) (now : Nat) (resp : List Char)
    (llmQuery : List Char → Except (List Char) (List Char))
    (hq : llmQuery (dashUnderscoreToSpace (List.intercalate [' '] L.dropLast))
        = Except.ok resp) :
    extract_question_from_domain (List.intercalate ['.'] L)
      = Except.ok (dashUnderscoreToSpace (List.intercalate [' '] L.dropLast)) ∧
    handle_request ⟨true⟩ true llmQuery now []
        ⟨idv, List.intercalate ['.'] L, QType.TXT, rd⟩
      = Except.ok
          (send_txt_response ⟨idv, List.intercalate ['.'] L, QType.TXT, rd⟩ resp,
           [(dashUnderscoreToSpace (List.intercalate [' '] L.dropLast), resp, now)]) := by
  have hext := extract_intercalate h2 hlab
  have hqne : dashUnderscoreToSpace (List.intercalate [' '] L.dropLast) ≠ [] := by
    rw [dashUnderscoreToSpace, ne_eq, List.map_eq_nil_iff]
    refine intercalate_ne_nil ?_ ?_
    · intro h
      have := congrArg List.length h
      simp only [List.length_dropLast, List.length_nil] at this
      omega
    · intro l hl
      exact (hlab l (List.dropLast_subset L hl)).1
  refine ⟨hext, ?_⟩
  rw [handle_request, if_neg (by simp), if_neg (by simp), hext]
  simp only [if_neg hqne, cacheFind, List.find?_nil, Option.map_none', handleLlm,
    hq, cacheInsert, Option.isSome_none, Bool.false_eq_true, if_false,
    List.nil_append]

/-- C1 witness: the amended statement applied at the concrete label sequence
`["what", "is", "com"]` with an echoing backend. -/
theorem c1_witness :
    extract_question_from_domain
        (List.intercalate ['.'] ["what".data, "is".data, "com".data])
      = Except.ok (dashUnderscoreToSpace
          (List.intercalate [' '] (["what".data, "is".data, "com".data]).dropLast)) ∧
    handle_request ⟨true⟩ true (fun _ => Except.ok "hi".data) 7 []
        ⟨9, List.intercalate ['.'] ["what".data, "is".data, "com".data],
          QType.TXT, true⟩
      = Except.ok
          (send_txt_response
            ⟨9, List.intercalate ['.'] ["what".data, "is".data, "com".data],
              QType.TXT, true⟩ "hi".data,
           [(dashUnderscoreToSpace
              (List.intercalate [' '] (["what".data, "is".data, "com".data]).dropLast),
             "hi".data, 7)]) :=
  c1_extract_raw_and_cache_key ["what".data, "is".data, "com".data]
    (by decide) (by decide) 9 true 7 "hi".data (fun _ => Except.ok "hi".data) rfl

/-! ### Claim C2: shallow domains -/

/-- C2 counterexample: on the one-label TXT query `com` the handler does not
send a `FormErr` reply; `extract_question_from_domain`'s error is propagated
by the `?` operator, `handle_request` returns `Err`, and the server task only
logs it — the request is dropped without any reply. -/
theorem c2_counterexample :
    handle_request ⟨true⟩ true (fun _ => Except.ok "x".data) 0 []
        ⟨7, "com".data, QType.TXT, false⟩
      = Except.error "Domain must have at least 2 parts".data := rfl

/-- C2 (amended): every admitted TXT request whose queried name has fewer
than 2 labels makes `handle_request` return the `InvalidQuery` error to its
caller — no reply of any kind is sent — and no backend call is made (the
result is the same for every backend). -/
theorem c2_shallow_domain_error (req : DnsRequest) (cfg : HandlerConfig)
    (now : Nat) (cache : HandlerCache)
    (llmQuery : List Char → Except (List Char) (List Char))
    (hty : req.qtype = QType.TXT)
    (hshallow : (splitDots (trimTrailingDots req.name)).length < 2) :
    handle_request cfg true llmQuery now cache req
      = Except.error "Domain must have at least 2 parts".data := by
  rw [handle_request, if_neg (by simp), if_neg (by simp [hty]),
    extract_question_from_domain, if_pos hshallow]

/-- C2 witness: the amended statement applied at the concrete query `com`. -/
theorem c2_witness :
    handle_request ⟨false⟩ true (fun _ => Except.ok []) 5 []
        ⟨3, "com".data, QType.TXT, true⟩
      = Except.error "Domain must have at least 2 parts".data :=
  c2_shallow_domain_error ⟨3, "com".data, QType.TXT, true⟩ ⟨false⟩ 5 []
    (fun _ => Except.ok []) rfl (by decide)

/-! ### Claim C3: cache eviction direction -/

/-- C3: with `max_size = 2`, insert `k1` at t=0 and `k2` at t=1, touch `k1`
with a `get` at t=2 (so `k1` is the most recently accessed entry and `k2` the
least), then insert `k3` at t=3.  Eviction keeps `k2` — the
least-recently-accessed entry — and removes `k1`, because `evict_entries`
sorts ascending by `last_accessed` and `take`s the first half, contradicting
its own comment "Keep the most recently used entries". -/
theorem c3_eviction_keeps_least_recently_accessed :
    (mapFind
        (set_with_ttl 3 2
          ((cache_get 2
              (set_with_ttl 1 2 (set_with_ttl 0 2 [] "k1".data "v1".data 1000)
                "k2".data "v2".data 1000)
              "k1".data).2)
          "k3".data "v3".data 1000)
        "k1".data = none) ∧
    ((set_with_ttl 3 2
        ((cache_get 2
            (set_with_ttl 1 2 (set_with_ttl 0 2 [] "k1".data "v1".data 1000)
              "k2".data "v2".data 1000)
            "k1".data).2)
        "k3".data "v3".data 1000).map Prod.fst = ["k2".data, "k3".data]) ∧
    ((mapFind ((cache_get 2
          (set_with_ttl 1 2 (set_with_ttl 0 2 [] "k1".data "v1".data 1000)
            "k2".data "v2".data 1000)
          "k1".data).2) "k1".data).map CacheEntry.last_accessed = some 2) ∧
    ((mapFind ((cache_get 2
          (set_with_ttl 1 2 (set_with_ttl 0 2 [] "k1".data "v1".data 1000)
            "k2".data "v2".data 1000)
          "k1".data).2) "k2".data).map CacheEntry.last_accessed = some 1) := by
  decide

/-! ### Claim C7: rate-limiter burst -/

theorem allow_request_singleton (addr : Nat) (b : TokenBucket) (cap rate lc t : ℚ)
    (hclean : ¬ (300 : ℚ) ≤ t - lc) :
    RateLimiter.allow_request ⟨[(addr, b)], cap, rate, lc⟩ addr t
      = ((b.try_consume 1 t).1,
         ⟨[(addr, (b.try_consume 1 t).2)], cap, rate, lc⟩) := by
  rw [RateLimiter.allow_request, RateLimiter.cleanup_if_needed, if_neg hclean]
  simp [updateBucket, List.find?]

theorem try_consume_refill_eval (tok u cap t : ℚ) :
    TokenBucket.try_consume ⟨tok, u, cap, 1⟩ 1 t
      = if (1 : ℚ) ≤ min (tok + (t - u)) cap
        then (true, ⟨min (tok + (t - u)) cap - 1, t, cap, 1⟩)
        else (false, ⟨min (tok + (t - u)) cap, t, cap, 1⟩) := by
  rw [TokenBucket.try_consume, TokenBucket.refill]
  simp only [mul_one]

theorem runAllow_invariant (B : ℕ) (t0 : ℚ) (addr : ℕ) :
    ∀ (ts : List ℚ) (j : ℕ) (u : ℚ), 1 ≤ j → j ≤ B →
      t0 ≤ u → u < t0 + 1 →
      List.Pairwise (· ≤ ·) (u :: ts) → (∀ t ∈ ts, t < t0 + 1) →
      runAllow
        ⟨[(addr, ⟨(B : ℚ) - (j : ℚ) + (u - t0), u, (B : ℚ), 1⟩)],
          (B : ℚ), 1, t0⟩ addr ts
        = List.replicate (min ts.length (B - j)) true ++
          List.replicate (ts.length - (B - j)) false := by
  intro ts
  induction ts with
  | nil =>
    intro j u _ _ _ _ _ _
    simp [runAllow]
  | cons t ts ih =>
    intro j u hj1 hjB hu0 hu1 hpw hwin
    have hut : u ≤ t := (List.pairwise_cons.mp hpw).1 t (List.mem_cons_self t ts)
    have hpw' : List.Pairwise (· ≤ ·) (t :: ts) := (List.pairwise_cons.mp hpw).2
    have ht0 : t0 ≤ t := le_trans hu0 hut
    have ht1 : t < t0 + 1 := hwin t (List.mem_cons_self t ts)
    have hwin' : ∀ x ∈ ts, x < t0 + 1 := fun x hx => hwin x (List.mem_cons_of_mem t hx)
    have hjq : (1 : ℚ) ≤ (j : ℚ) := by exact_mod_cast hj1
    rw [runAllow, allow_request_singleton addr _ _ _ _ t (by linarith),
      try_consume_refill_eval]
    have hmin : min (((B : ℚ) - (j : ℚ) + (u - t0)) + (t - u)) (B : ℚ)
        = (B : ℚ) - (j : ℚ) + (t - t0) := by
      rw [show ((B : ℚ) - (j : ℚ) + (u - t0)) + (t - u)
          = (B : ℚ) - (j : ℚ) + (t - t0) from by ring]
      exact min_eq_left (by linarith)
    rw [hmin]
    by_cases hcase : j < B
    · have hjB' : (j : ℚ) + 1 ≤ (B : ℚ) := by exact_mod_cast hcase
      have hge : (1 : ℚ) ≤ (B : ℚ) - (j : ℚ) + (t - t0) := by linarith
      rw [if_pos hge]
      rw [show (B : ℚ) - (j : ℚ) + (t - t0) - 1
          = (B : ℚ) - ((j + 1 : ℕ) : ℚ) + (t - t0) from by push_cast; ring]
      dsimp only
      rw [ih (j + 1) t (by omega) (by omega) ht0 ht1 hpw' hwin']
      simp only [List.length_cons, show B - j = (B - (j + 1)) + 1 from by omega,
        Nat.succ_min_succ, Nat.succ_sub_succ, List.replicate_succ,
        List.cons_append]
    · have hjeq : j = B := by omega
      have hBq : (B : ℚ) = (j : ℚ) := by exact_mod_cast hjeq.symm
      have hlt : ¬ (1 : ℚ) ≤ (B : ℚ) - (j : ℚ) + (t - t0) := by
        rw [hBq]
        intro hcon
        linarith
      rw [if_neg hlt]
      dsimp only
      rw [ih j t hj1 hjB ht0 ht1 hpw' hwin']
      subst hjeq
      simp [List.replicate_succ]

/-- C7: with `requests_per_minute = 60` and `burst_size = B ≥ 1`, the first B
calls to `allow_request` from a fresh limiter for one address return true and
the (B+1)-th returns false, provided all B+1 calls happen within less than
one second. -/
theorem c7_rate_limiter_burst (B : ℕ) (hB : 1 ≤ B) (t0 : ℚ) (rest : List ℚ)
    (addr : ℕ) (hlen : rest.length = B)
    (hsorted : List.Pairwise (· ≤ ·) (t0 :: rest))
    (hwin : ∀ t ∈ rest, t < t0 + 1) :
    runAllow (RateLimiter.new 60 B t0) addr (t0 :: rest)
      = List.replicate B true ++ [false] := by
  have hnew : RateLimiter.new 60 B t0 = ⟨[], (B : ℚ), 1, t0⟩ := by
    rw [RateLimiter.new]
    norm_num
  rw [runAllow, hnew, RateLimiter.allow_request, RateLimiter.cleanup_if_needed,
    if_neg (by simp)]
  simp only [List.find?_nil, Option.map_none', TokenBucket.new, List.nil_append]
  rw [try_consume_refill_eval]
  rw [show (B : ℚ) + (t0 - t0) = (B : ℚ) from by ring, min_self,
    if_pos (by exact_mod_cast hB)]
  simp only [updateBucket, List.map_cons, List.map_nil, eq_self_iff_true, if_true]
  rw [show (B : ℚ) - 1 = (B : ℚ) - ((1 : ℕ) : ℚ) + (t0 - t0) from by push_cast; ring]
  rw [runAllow_invariant B t0 addr rest 1 t0 le_rfl hB le_rfl (by linarith)
    hsorted hwin]
  rw [hlen, show min B (B - 1) = B - 1 from by omega,
    show B - (B - 1) = 1 from by omega]
  conv_rhs => rw [show B = (B - 1) + 1 from by omega]
  simp [List.replicate_succ]

/-- C7 witness: burst size 2 at rpm 60; three calls inside one second from
one address give true, true, false. -/
theorem c7_witness :
    runAllow (RateLimiter.new 60 2 0) 5 [0, 0, 0]
      = List.replicate 2 true ++ [false] :=
  c7_rate_limiter_burst 2 (by norm_num) 0 [0, 0] 5 rfl
    (by norm_num [List.pairwise_cons]) (by norm_num)

end LLMdig
